import Mathlib

/-!
Verification development for the `gianna` in-memory full-text search index
(`src/index.rs`).

Modelling conventions (shallow embedding):

* Rust `HashMap<K, V>` is modelled as an association list `List (K × V)`;
  `insert` replaces the first entry with the given key (or appends a fresh
  entry), `remove` drops entries with the key, and lookup returns the first
  match.  Iteration order of a `HashMap` is unspecified in Rust; the list
  order is the model's choice of that unspecified order.
* `u32` internal ids and `u8` posting weights are modelled as `Nat` (the
  weights used by the code are only `1` and `50`; no arithmetic that could
  overflow is performed on them).
* `f32` accumulated scores are modelled as `Rat`.  The scores the code
  computes are sums of the small integer weights and halves/quarters of such
  sums, all of which `f32` represents exactly in the ranges the code works
  with, so exact rational arithmetic is a faithful model of the float
  operations actually performed.
* `serde_json::Value` is modelled by the inductive `Value`; a document
  payload is stored as the `Value` itself rather than its serialization.
  `parse_json` (which re-parses `obj.to_string()` with `unwrap`) is thereby
  modelled as the identity: serialization followed by parsing round-trips,
  so for payloads written by this system the re-parse cannot fail.
* The tokenizer (`crate::lp::gramify` / `crate::lp::clean_words`) and the
  fuzzy matcher (`sublime_fuzzy::FuzzySearch::best_match`, whose score is an
  `isize`) are external collaborators; they are modelled as an abstract
  parameter `Ext` supplied to every operation that uses them.
* Rust panics (`unwrap` on `None`, indexing an empty vector) are modelled as
  `Except`/`Option` failure values: `Panic.missingId` and `Panic.unknownId`
  name the two `unwrap` sites of `add_object`/`update`, and the query path
  returns `none` where the Rust code would panic.
-/

set_option linter.unusedVariables false
set_option linter.unusedSectionVars false

namespace Gianna

/-! ## Association-list model of `HashMap` -/

/-- First-match lookup, modelling `HashMap::get`. -/
def getKV {K V : Type} [DecidableEq K] : List (K × V) → K → Option V
  | [], _ => none
  | (k', v) :: rest, k => if k' = k then some v else getKV rest k

/-- `HashMap::insert`: replace the first entry with this key, else append. -/
def upsert {K V : Type} [DecidableEq K] (k : K) (v : V) : List (K × V) → List (K × V)
  | [] => [(k, v)]
  | (k', v') :: rest => if k' = k then (k, v) :: rest else (k', v') :: upsert k v rest

/-- `HashMap::remove`: drop the entries with this key. -/
def eraseKey {K V : Type} [DecidableEq K] (k : K) (m : List (K × V)) : List (K × V) :=
  m.filter (fun p => p.1 ≠ k)

/-- The keys of the map. -/
def keys {K V : Type} (m : List (K × V)) : List K :=
  m.map Prod.fst

/-- Score accumulation `*scores.entry(id).or_insert(0.0) += w`. -/
def bump (id : Nat) (w : Rat) : List (Nat × Rat) → List (Nat × Rat)
  | [] => [(id, w)]
  | (i, s) :: rest => if i = id then (i, s + w) :: rest else (i, s) :: bump id w rest

/-! ## Sorting (Rust `sort_by` / `sort_unstable`) -/

/-- Stable insertion for `sortBy`. -/
def insertBy {α : Type} (le : α → α → Bool) (a : α) : List α → List α
  | [] => [a]
  | b :: rest => if le a b then a :: b :: rest else b :: insertBy le a rest

/-- Stable insertion sort; models Rust's (stable) `sort_by`.  For
`sort_unstable` the tie order is unspecified in Rust, so a stable sort is one
admissible model. -/
def sortBy {α : Type} (le : α → α → Bool) : List α → List α
  | [] => []
  | a :: rest => insertBy le a (sortBy le rest)

/-- Descending sort of `(id, score)` pairs by score, modelling
`sort_by(|a, b| b.1.partial_cmp(&a.1).unwrap())`.  The scores are sums of
natural-number weights (never NaN), so the `partial_cmp` unwrap never fails
and the comparison is the total order on `Rat`. -/
def sortDesc (l : List (Nat × Rat)) : List (Nat × Rat) :=
  sortBy (fun a b => decide (b.2 ≤ a.2)) l

/-- Rust `v.sort_unstable(); v.dedup();` on a list of strings: the sorted
list of distinct elements. -/
def sortDedup (l : List String) : List String :=
  (sortBy (fun a b => decide (a ≤ b)) l).dedup

/-! ## JSON values (`serde_json::Value`) -/

/-- Model of `serde_json::Value`.  Numbers are modelled as integers; the
code only ever distinguishes strings, arrays and objects, so the numeric
representation is irrelevant. -/
inductive Value : Type where
  | null : Value
  | bool (b : Bool) : Value
  | num (n : Int) : Value
  | str (s : String) : Value
  | arr (elems : List Value) : Value
  | obj (members : List (String × Value)) : Value

/-- `Value::as_str`. -/
def Value.asStr : Value → Option String
  | .str s => some s
  | _ => none

/-- `value[key]` for a string key: member of an object, `Null` otherwise
(serde_json's `Index` impl returns `Null` for missing members and for
non-object values). -/
def getField (v : Value) (key : String) : Value :=
  match v with
  | .obj members => (getKV members key).getD .null
  | _ => .null

/-! ## External collaborators -/

/-- The external tokenizer (`crate::lp::gramify`, `crate::lp::clean_words`)
and fuzzy matcher (`sublime_fuzzy`, whose `Match::score` is an `isize`).
The development is parametric in these. -/
structure Ext : Type where
  gramify : String → List String
  clean_words : String → List String
  best_match : String → String → Option Int

/-! ## The index (`struct Index`) -/

/-- Model of `struct Index`.  `items` stores the document payload as a
`Value` (standing for its `to_string()` serialization, see the header
comment). -/
structure Index : Type where
  id_counter : Nat
  items : List (Nat × Value)
  token_scoring : List (String × List (Nat × Nat))
  id_map : List (String × Nat)
  fields : List String
  query_times : List (Nat × Nat)

/-- The two `unwrap`-on-`None` panic sites of `add_object`/`update`; in the
Rust code both abort the process. -/
inductive Panic : Type where
  | missingId : Panic
  | unknownId : Panic
deriving DecidableEq

/-- `create(fields)`. -/
def create (fields : List String) : Index :=
  { id_counter := 0, items := [], token_scoring := [], id_map := [],
    fields := fields, query_times := [] }

/-- `clear(index)`: resets the counter and the three maps; `fields` and
`query_times` are left as they are. -/
def clear (i : Index) : Index :=
  { i with id_counter := 0, items := [], token_scoring := [], id_map := [] }

/-- Rust `str::trim`: drop whitespace from both ends.  Defined directly on
the character list so that it evaluates by kernel reduction. -/
def trimStr (s : String) : String :=
  String.mk ((((s.data.dropWhile (fun c => c.isWhitespace)).reverse.dropWhile
    (fun c => c.isWhitespace)).reverse))

/-- `extract_fields(obj, fields)`. -/
def extract_fields (obj : Value) (fields : List String) : String :=
  fields.foldl (fun acc prop =>
    match getField obj prop with
    | .str s => acc ++ s ++ " "
    | .arr elems =>
        elems.foldl (fun a el =>
          match el with
          | .str s => a ++ s ++ " "
          | _ => a) acc
    | .obj members =>
        members.foldl (fun a kv =>
          match kv.2 with
          | .str s => a ++ s ++ " "
          | _ => a) acc
    | _ => acc) ""

/-- One step of the posting loops of `index_item`: append `(iid, w)` to the
token's postings list, creating the list if the token is absent. -/
def appendPosting (t : String) (p : Nat × Nat) :
    List (String × List (Nat × Nat)) → List (String × List (Nat × Nat))
  | [] => [(t, [p])]
  | (t', ps) :: rest =>
      if t' = t then (t', ps ++ [p]) :: rest else (t', ps) :: appendPosting t p rest

/-- `index_item(index, iid, to_tokenize)`: sorted-deduplicated grams get a
`(iid, 1)` posting each, then sorted-deduplicated words get a `(iid, 50)`
posting each. -/
def index_item (E : Ext) (i : Index) (iid : Nat) (to_tokenize : String) : Index :=
  let grams := sortDedup (E.gramify to_tokenize)
  let ts1 := grams.foldl (fun ts g => appendPosting g (iid, 1) ts) i.token_scoring
  let words := sortDedup (E.clean_words to_tokenize)
  let ts2 := words.foldl (fun ts w => appendPosting w (iid, 50) ts) ts1
  { i with token_scoring := ts2 }

/-- `add(index, id, obj, to_tokenize)`. -/
def add (E : Ext) (i : Index) (id : String) (obj : Value) (to_tokenize : String) : Index :=
  let iid := i.id_counter
  let i1 := { i with
    id_map := upsert id iid i.id_map,
    id_counter := i.id_counter + 1,
    items := upsert iid obj i.items }
  index_item E i1 iid to_tokenize

/-- `add_object(index, obj)`.  The `obj["_id"].as_str().unwrap()` panic is
modelled as `Panic.missingId`. -/
def add_object (E : Ext) (i : Index) (obj : Value) : Except Panic Index :=
  let token_str := extract_fields obj i.fields
  match (getField obj "_id").asStr with
  | none => .error .missingId
  | some id => .ok (add E i id obj (trimStr token_str))

/-- Strip internal id `iid` from every postings list, then drop tokens whose
postings list became empty (the two `retain` passes shared by `remove` and
`update`). -/
def stripId (iid : Nat) (ts : List (String × List (Nat × Nat))) :
    List (String × List (Nat × Nat)) :=
  (ts.map (fun tp => (tp.1, tp.2.filter (fun p => p.1 ≠ iid)))).filter
    (fun tp => tp.2.length > 0)

/-- `update(index, obj)`.  The two `unwrap` panics are modelled as
`Panic.missingId` (id field absent / not a string) and `Panic.unknownId`
(external id not in `id_map`). -/
def update (E : Ext) (i : Index) (obj : Value) : Except Panic Index :=
  let token_str := extract_fields obj i.fields
  match (getField obj "_id").asStr with
  | none => .error .missingId
  | some id =>
    match getKV i.id_map id with
    | none => .error .unknownId
    | some iid =>
      let i1 := { i with
        token_scoring := stripId iid i.token_scoring,
        items := upsert iid obj i.items }
      .ok (index_item E i1 iid (trimStr token_str))

/-- `remove(index, id) -> bool` (returning the updated index as well). -/
def remove (i : Index) (id : String) : Bool × Index :=
  match getKV i.id_map id with
  | none => (false, i)
  | some iid =>
      (true, { i with
        items := eraseKey iid i.items,
        id_map := eraseKey id i.id_map,
        token_scoring := stripId iid i.token_scoring })

/-! ## Query path -/

/-- The per-internal-id accumulated scores: for every query token present in
the inverted index, each posting's weight is added to that id's
accumulator.  Query tokens are not deduplicated. -/
def accumScores (ts : List (String × List (Nat × Nat))) (tokens : List String) :
    List (Nat × Rat) :=
  tokens.foldl (fun acc tok =>
    match getKV ts tok with
    | none => acc
    | some postings => postings.foldl (fun a p => bump p.1 (p.2 : Rat) a) acc) []

/-- The accumulated score list of `get_key_score_list` (its `scores` map,
fed by the grams and then the words of the query). -/
def scoreList (E : Ext) (i : Index) (query : String) : List (Nat × Rat) :=
  accumScores i.token_scoring (E.gramify query ++ E.clean_words query)

/-- The coarse candidate list: the score list sorted descending, retaining
the entries scoring at least `highest / 2` (lines 180–182 of `index.rs`).
The `none` head case is the empty score list, on which `get_key_score_list`
never calls this. -/
def coarseCandidates (E : Ext) (i : Index) (query : String) : List (Nat × Rat) :=
  let sorted := sortDesc (scoreList E i query)
  match sorted.head? with
  | none => []
  | some top => sorted.filter (fun x => decide (top.2 / 2 ≤ x.2))

/-- The fuzzy-rerank loop: resolve each surviving candidate's payload
(`items.get(&id).unwrap()`, modelled as an `Option` failure), re-extract its
field text, and keep the candidates for which the external matcher finds a
match, scored by the matcher. -/
def fuzzyLoop (E : Ext) (i : Index) (query : String) :
    List (Nat × Rat) → Option (List (Nat × Rat))
  | [] => some []
  | (id, _) :: rest =>
    match getKV i.items id with
    | none => none
    | some item =>
      let super_string := extract_fields item i.fields
      match fuzzyLoop E i query rest with
      | none => none
      | some tail =>
        match E.best_match query super_string with
        | none => some tail
        | some score => some ((id, (score : Rat)) :: tail)

/-- `get_key_score_list(index, query)`.  `none` models a panic: a failed
document-store lookup in the fuzzy loop, or indexing `key_score_list[0]`
when that list is empty (lines 181 and 205; both are proved unreachable
below).  The `_dead` filter models lines 205–206, whose result the code
discards. -/
def get_key_score_list (E : Ext) (i : Index) (query : String) :
    Option (List (Nat × Rat)) :=
  let scores := scoreList E i query
  if scores.length = 0 then some [] else
  let ksl := coarseCandidates E i query
  match fuzzyLoop E i query ksl with
  | none => none
  | some fuzzy_scores =>
    match ksl.head? with
    | none => none
    | some top2 =>
      let _dead := ksl.filter (fun x => decide (top2.2 / 4 ≤ x.2))
      some (sortDesc fuzzy_scores)

/-- The tail of `search`: map each surviving internal id back to its stored
payload (`items.get(&tuple.0).unwrap()`, modelled as an `Option` failure). -/
def resolveItems (items : List (Nat × Value)) : List (Nat × Rat) → Option (List Value)
  | [] => some []
  | (id, _) :: rest =>
    match getKV items id with
    | none => none
    | some item =>
      match resolveItems items rest with
      | none => none
      | some tail => some (item :: tail)

/-- `search(index, original_query)`. -/
def search (E : Ext) (i : Index) (original_query : String) : Option (List Value) :=
  let query := trimStr original_query
  if query.length = 0 then some (i.items.map (fun p => p.2)) else
  match get_key_score_list E i query with
  | none => none
  | some key_score_list => resolveItems i.items key_score_list

/-- Spec variant of `get_key_score_list` with the second threshold filter
(the recomputation of `highest` and the `retain` on the superseded coarse
list, lines 204–206) removed; used to state that the filter step has no
effect on the results. -/
def get_key_score_list_noDeadFilter (E : Ext) (i : Index) (query : String) :
    Option (List (Nat × Rat)) :=
  let scores := scoreList E i query
  if scores.length = 0 then some [] else
  let ksl := coarseCandidates E i query
  match fuzzyLoop E i query ksl with
  | none => none
  | some fuzzy_scores => some (sortDesc fuzzy_scores)

/-- `search` built on `get_key_score_list_noDeadFilter`. -/
def search_noDeadFilter (E : Ext) (i : Index) (original_query : String) :
    Option (List Value) :=
  let query := trimStr original_query
  if query.length = 0 then some (i.items.map (fun p => p.2)) else
  match get_key_score_list_noDeadFilter E i query with
  | none => none
  | some key_score_list => resolveItems i.items key_score_list

/-! ## Invariants and reachability -/

/-- The Identity-Map bijection of spec §3: every internal id that is a key
of the Document Store has exactly one external id mapping to it, and every
external id maps to an internal id present in the Document Store. -/
def IdBij (i : Index) : Prop :=
  (∀ iid, iid ∈ keys i.items → ∃! e : String, getKV i.id_map e = some iid) ∧
  (∀ e iid, getKV i.id_map e = some iid → iid ∈ keys i.items)

/-- Strengthened identity invariant used for the induction: key lists are
duplicate-free, items keys are below the counter, `id_map`'s values are
exactly the items keys, and `id_map` is injective. -/
def GoodIdx (i : Index) : Prop :=
  (keys i.items).Nodup ∧ (keys i.id_map).Nodup ∧
  (∀ iid, iid ∈ keys i.items → iid < i.id_counter) ∧
  (∀ iid, iid ∈ keys i.items ↔ ∃ e, getKV i.id_map e = some iid) ∧
  (∀ e1 e2 iid, getKV i.id_map e1 = some iid → getKV i.id_map e2 = some iid →
    e1 = e2)

/-- Every internal id mentioned in any postings list is a key of the
Document Store. -/
def PostingsClosed (i : Index) : Prop :=
  ∀ tp ∈ i.token_scoring, ∀ p ∈ tp.2, p.1 ∈ keys i.items

/-- Index states reachable by the public operations (for the fallible
operations, by runs in which they succeed; a Rust panic leaves no successor
state). -/
inductive Reachable (E : Ext) : Index → Prop where
  | step_create (fields : List String) : Reachable E (create fields)
  | step_clear {i : Index} : Reachable E i → Reachable E (clear i)
  | step_add {i : Index} {obj : Value} {i' : Index} :
      Reachable E i → add_object E i obj = .ok i' → Reachable E i'
  | step_update {i : Index} {obj : Value} {i' : Index} :
      Reachable E i → update E i obj = .ok i' → Reachable E i'
  | step_remove {i : Index} (id : String) :
      Reachable E i → Reachable E (remove i id).2

/-- Reachability restricted to duplicate-free ingestion: `add_object` is
only ever called with an external id not already present in the Identity
Map. -/
inductive ReachableDF (E : Ext) : Index → Prop where
  | step_create (fields : List String) : ReachableDF E (create fields)
  | step_clear {i : Index} : ReachableDF E i → ReachableDF E (clear i)
  | step_add {i : Index} {obj : Value} {i' : Index} :
      ReachableDF E i →
      (∀ s, (getField obj "_id").asStr = some s → getKV i.id_map s = none) →
      add_object E i obj = .ok i' → ReachableDF E i'
  | step_update {i : Index} {obj : Value} {i' : Index} :
      ReachableDF E i → update E i obj = .ok i' → ReachableDF E i'
  | step_remove {i : Index} (id : String) :
      ReachableDF E i → ReachableDF E (remove i id).2

/-! ## Concrete instances for witnesses and counterexamples -/

/-- A trivial tokenizer: no tokens, no fuzzy matches. -/
def extTrivial : Ext :=
  { gramify := fun _ => [], clean_words := fun _ => [], best_match := fun _ _ => none }

/-- A one-token tokenizer: the whole string is both the only gram and the
only word; the matcher always matches with score 1. -/
def extWhole : Ext :=
  { gramify := fun s => [s], clean_words := fun s => [s],
    best_match := fun _ _ => some 1 }

/-- A gram-only tokenizer used for the pruning-threshold scenario. -/
def extGramOnly : Ext :=
  { gramify := fun s => [s], clean_words := fun _ => [],
    best_match := fun _ _ => some 1 }

/-- A document whose only member is its external id `"a"`. -/
def docA : Value := .obj [("_id", .str "a")]

/-- A document with external id `"a"` and a `"title"` field. -/
def docT : Value := .obj [("_id", .str "a"), ("title", .str "x")]

/-- The index obtained by adding `docA` once to a fresh field-less index. -/
def idxOne : Index :=
  { id_counter := 1, items := [(0, docA)], token_scoring := [],
    id_map := [("a", 0)], fields := [], query_times := [] }

/-- The index obtained by adding `docA` twice to a fresh field-less index:
internal id 0 is orphaned (still stored, no external id maps to it). -/
def idxDup : Index :=
  { id_counter := 2, items := [(0, docA), (1, docA)], token_scoring := [],
    id_map := [("a", 1)], fields := [], query_times := [] }

/-- The index obtained by adding `docT` to a fresh index on fields
`["title"]` under the `extWhole` tokenizer. -/
def idxTitle : Index :=
  { id_counter := 1, items := [(0, docT)],
    token_scoring := [("x", [(0, 1), (0, 50)])],
    id_map := [("a", 0)], fields := ["title"], query_times := [] }

/-- A hand-built state for the pruning-threshold scenario: candidate 0
accumulates score 100 and candidate 1 accumulates score 40 on query
`"q"`. -/
def idxPrune : Index :=
  { id_counter := 2, items := [(0, .null), (1, .null)],
    token_scoring := [("q", [(0, 100), (1, 40)])],
    id_map := [], fields := [], query_times := [] }

/-! ## Association-list lemmas -/

variable {K V : Type} [DecidableEq K]

theorem keys_nil : keys ([] : List (K × V)) = [] := rfl

theorem keys_cons (p : K × V) (m : List (K × V)) : keys (p :: m) = p.1 :: keys m := rfl

theorem getKV_nil (k : K) : getKV ([] : List (K × V)) k = none := rfl

theorem getKV_cons (k0 : K) (v0 : V) (m : List (K × V)) (k : K) :
    getKV ((k0, v0) :: m) k = if k0 = k then some v0 else getKV m k := rfl

theorem upsert_nil (k : K) (v : V) : upsert k v ([] : List (K × V)) = [(k, v)] := rfl

theorem upsert_cons (k0 : K) (v0 : V) (m : List (K × V)) (k : K) (v : V) :
    upsert k v ((k0, v0) :: m) =
      if k0 = k then (k, v) :: m else (k0, v0) :: upsert k v m := rfl

theorem eraseKey_nil (k : K) : eraseKey k ([] : List (K × V)) = [] := rfl

theorem eraseKey_cons (k0 : K) (v0 : V) (m : List (K × V)) (k : K) :
    eraseKey k ((k0, v0) :: m) =
      if k0 = k then eraseKey k m else (k0, v0) :: eraseKey k m := by
  by_cases h : k0 = k
  · simp [eraseKey, List.filter_cons, h]
  · simp [eraseKey, List.filter_cons, h]

theorem getKV_eq_none_iff {m : List (K × V)} {k : K} :
    getKV m k = none ↔ k ∉ keys m := by
  induction m with
  | nil => simp [getKV_nil, keys_nil]
  | cons p rest ih =>
    obtain ⟨k', v'⟩ := p
    by_cases h : k' = k
    · subst h
      simp [getKV_cons, keys_cons]
    · simp [getKV_cons, keys_cons, h, ih, Ne.symm h]

theorem getKV_mem {m : List (K × V)} {k : K} {v : V}
    (h : getKV m k = some v) : (k, v) ∈ m := by
  induction m with
  | nil => simp [getKV_nil] at h
  | cons p rest ih =>
    obtain ⟨k', v'⟩ := p
    by_cases hk : k' = k
    · subst hk
      simp [getKV_cons] at h
      simp [h]
    · simp [getKV_cons, hk] at h
      simp [ih h]

theorem exists_getKV_of_mem_keys {m : List (K × V)} {k : K}
    (h : k ∈ keys m) : ∃ v, getKV m k = some v := by
  rcases hv : getKV m k with _ | v
  · exact absurd (getKV_eq_none_iff.mp hv) (by simp [h])
  · exact ⟨v, rfl⟩

theorem mem_keys_of_getKV {m : List (K × V)} {k : K} {v : V}
    (h : getKV m k = some v) : k ∈ keys m := by
  by_contra hk
  rw [← getKV_eq_none_iff] at hk
  rw [h] at hk
  cases hk

theorem getKV_upsert_self (k : K) (v : V) (m : List (K × V)) :
    getKV (upsert k v m) k = some v := by
  induction m with
  | nil => simp [upsert_nil, getKV_cons]
  | cons p rest ih =>
    obtain ⟨k', v'⟩ := p
    by_cases h : k' = k
    · simp [upsert_cons, h, getKV_cons]
    · simp [upsert_cons, h, getKV_cons, ih]

theorem getKV_upsert_ne {k k' : K} (hne : k' ≠ k) (v : V) (m : List (K × V)) :
    getKV (upsert k v m) k' = getKV m k' := by
  induction m with
  | nil => simp [upsert_nil, getKV_cons, getKV_nil, Ne.symm hne]
  | cons p rest ih =>
    obtain ⟨k0, v0⟩ := p
    by_cases h : k0 = k
    · subst h
      simp [upsert_cons, getKV_cons, Ne.symm hne]
    · rw [upsert_cons, if_neg h]
      by_cases h' : k0 = k'
      · simp [getKV_cons, h']
      · simp [getKV_cons, h', ih]

theorem mem_keys_upsert {k k' : K} {v : V} {m : List (K × V)} :
    k' ∈ keys (upsert k v m) ↔ k' = k ∨ k' ∈ keys m := by
  induction m with
  | nil => simp [upsert_nil, keys_cons, keys_nil]
  | cons p rest ih =>
    obtain ⟨k0, v0⟩ := p
    by_cases h : k0 = k
    · subst h
      rw [upsert_cons, if_pos rfl, keys_cons, keys_cons]
      simp only [List.mem_cons]
      tauto
    · rw [upsert_cons, if_neg h]
      simp only [keys_cons] at ih ⊢
      simp only [List.mem_cons] at ih ⊢
      tauto

theorem keys_upsert_of_mem {k : K} {m : List (K × V)} (h : k ∈ keys m) (v : V) :
    keys (upsert k v m) = keys m := by
  induction m with
  | nil => simp [keys_nil] at h
  | cons p rest ih =>
    obtain ⟨k0, v0⟩ := p
    by_cases hk : k0 = k
    · subst hk
      simp [upsert_cons, keys_cons]
    · rw [keys_cons] at h
      simp only [List.mem_cons] at h
      rcases h with h | h
      · exact absurd h.symm hk
      · rw [upsert_cons, if_neg hk, keys_cons, keys_cons, ih h]

theorem keys_upsert_of_not_mem {k : K} {m : List (K × V)} (h : k ∉ keys m) (v : V) :
    keys (upsert k v m) = keys m ++ [k] := by
  induction m with
  | nil => simp [upsert_nil, keys_cons, keys_nil]
  | cons p rest ih =>
    obtain ⟨k0, v0⟩ := p
    rw [keys_cons] at h
    simp only [List.mem_cons] at h
    push_neg at h
    rw [upsert_cons, if_neg (fun hc => h.1 hc.symm), keys_cons, keys_cons,
      ih h.2, List.cons_append]

theorem nodup_keys_upsert {k : K} {v : V} {m : List (K × V)}
    (h : (keys m).Nodup) : (keys (upsert k v m)).Nodup := by
  by_cases hk : k ∈ keys m
  · rw [keys_upsert_of_mem hk]
    exact h
  · rw [keys_upsert_of_not_mem hk]
    simp [List.nodup_append, h, hk]

theorem getKV_eraseKey_self (k : K) (m : List (K × V)) :
    getKV (eraseKey k m) k = none := by
  rw [getKV_eq_none_iff]
  intro h
  simp only [keys, eraseKey, List.mem_map] at h
  obtain ⟨p, hp, hpk⟩ := h
  rw [List.mem_filter] at hp
  exact absurd hpk (by simpa using hp.2)

theorem getKV_eraseKey_ne {k k' : K} (hne : k' ≠ k) (m : List (K × V)) :
    getKV (eraseKey k m) k' = getKV m k' := by
  induction m with
  | nil => simp [eraseKey_nil]
  | cons p rest ih =>
    obtain ⟨k0, v0⟩ := p
    by_cases h : k0 = k
    · subst h
      rw [eraseKey_cons, if_pos rfl, getKV_cons, if_neg (fun hc => hne hc.symm), ih]
    · rw [eraseKey_cons, if_neg h, getKV_cons, getKV_cons]
      by_cases h' : k0 = k'
      · simp [h']
      · simp [h', ih]

theorem mem_keys_eraseKey {k k' : K} {m : List (K × V)} :
    k' ∈ keys (eraseKey k m) ↔ k' ≠ k ∧ k' ∈ keys m := by
  simp only [keys, eraseKey, List.mem_map]
  constructor
  · rintro ⟨p, hp, rfl⟩
    rw [List.mem_filter] at hp
    exact ⟨by simpa using hp.2, ⟨p, hp.1, rfl⟩⟩
  · rintro ⟨hne, p, hp, rfl⟩
    exact ⟨p, List.mem_filter.mpr ⟨hp, by simpa using hne⟩, rfl⟩

theorem keys_eraseKey (k : K) (m : List (K × V)) :
    keys (eraseKey k m) = (keys m).filter (fun x => x ≠ k) := by
  induction m with
  | nil => simp [eraseKey_nil, keys_nil]
  | cons p rest ih =>
    obtain ⟨k0, v0⟩ := p
    by_cases hk : k0 = k
    · rw [eraseKey_cons, if_pos hk, keys_cons, List.filter_cons,
        if_neg (by simp [hk]), ih]
    · rw [eraseKey_cons, if_neg hk, keys_cons, keys_cons, List.filter_cons,
        if_pos (by simp [hk]), ih]

theorem nodup_keys_eraseKey {k : K} {m : List (K × V)}
    (h : (keys m).Nodup) : (keys (eraseKey k m)).Nodup := by
  rw [keys_eraseKey]
  exact h.filter _

/-! ## stripId lemmas (remove / update postings cleanup) -/

theorem mem_stripId {iid : Nat} {ts : List (String × List (Nat × Nat))}
    {tp : String × List (Nat × Nat)} (h : tp ∈ stripId iid ts) :
    tp.2 ≠ [] ∧ (∀ p ∈ tp.2, p.1 ≠ iid) ∧
      ∃ tp' ∈ ts, tp.1 = tp'.1 ∧ ∀ p ∈ tp.2, p ∈ tp'.2 := by
  simp only [stripId, List.mem_filter, List.mem_map] at h
  obtain ⟨⟨tp', htp', rfl⟩, hlen⟩ := h
  refine ⟨?_, ?_, ⟨tp', htp', rfl, ?_⟩⟩
  · exact List.length_pos.mp (of_decide_eq_true hlen)
  · intro p hp
    rw [List.mem_filter] at hp
    simpa using hp.2
  · intro p hp
    rw [List.mem_filter] at hp
    exact hp.1

/-! ## remove (claim C4) -/

theorem remove_of_none {i : Index} {id : String} (h : getKV i.id_map id = none) :
    remove i id = (false, i) := by
  simp only [remove, h]

theorem remove_of_some {i : Index} {id : String} {iid : Nat}
    (h : getKV i.id_map id = some iid) :
    remove i id = (true, { i with
      items := eraseKey iid i.items,
      id_map := eraseKey id i.id_map,
      token_scoring := stripId iid i.token_scoring }) := by
  simp only [remove, h]

/-- C4: for every index state and external id, `remove` on an unknown id
returns `false` and leaves the index unchanged; on a known id it returns
`true`, deletes the Document Store entry and the Identity Map entry, and
every surviving postings list is nonempty and free of the removed internal
id. -/
theorem remove_correct (i : Index) (id : String) :
    (getKV i.id_map id = none → remove i id = (false, i)) ∧
    (∀ iid, getKV i.id_map id = some iid →
      (remove i id).1 = true ∧
      getKV (remove i id).2.items iid = none ∧
      getKV (remove i id).2.id_map id = none ∧
      (∀ t ps, getKV (remove i id).2.token_scoring t = some ps →
        ps ≠ [] ∧ ∀ p ∈ ps, p.1 ≠ iid)) := by
  refine ⟨fun h => remove_of_none h, fun iid h => ?_⟩
  rw [remove_of_some h]
  refine ⟨rfl, getKV_eraseKey_self iid i.items, getKV_eraseKey_self id i.id_map, ?_⟩
  intro t ps hts
  have hmem := mem_stripId (getKV_mem hts)
  exact ⟨hmem.1, hmem.2.1⟩

/-- C4 witness: removing `"a"` from the one-document index deletes its store
and identity entries and reports `true`; a second removal returns `false`
and changes nothing. -/
theorem remove_correct_witness :
    ((remove idxOne "a").1 = true ∧
      getKV (remove idxOne "a").2.items 0 = none ∧
      getKV (remove idxOne "a").2.id_map "a" = none) ∧
    remove (remove idxOne "a").2 "a" = (false, (remove idxOne "a").2) := by
  have h := (remove_correct idxOne "a").2 0 rfl
  have h2 := (remove_correct (remove idxOne "a").2 "a").1 h.2.2.1
  exact ⟨⟨h.1, h.2.1, h.2.2.1⟩, h2⟩

/-! ## index_item postings (claim C7) -/

theorem appendPosting_nil (t : String) (p : Nat × Nat) :
    appendPosting t p [] = [(t, [p])] := rfl

theorem appendPosting_cons (t0 : String) (ps0 : List (Nat × Nat))
    (rest : List (String × List (Nat × Nat))) (t : String) (p : Nat × Nat) :
    appendPosting t p ((t0, ps0) :: rest) =
      if t0 = t then (t0, ps0 ++ [p]) :: rest
      else (t0, ps0) :: appendPosting t p rest := rfl

theorem getKV_appendPosting_self (t : String) (p : Nat × Nat)
    (ts : List (String × List (Nat × Nat))) :
    getKV (appendPosting t p ts) t = some ((getKV ts t).getD [] ++ [p]) := by
  induction ts with
  | nil => simp [appendPosting_nil, getKV_cons, getKV_nil]
  | cons tp rest ih =>
    obtain ⟨t0, ps0⟩ := tp
    by_cases h : t0 = t
    · subst h
      rw [appendPosting_cons, if_pos rfl, getKV_cons, if_pos rfl, getKV_cons,
        if_pos rfl]
      rfl
    · rw [appendPosting_cons, if_neg h, getKV_cons, if_neg h, getKV_cons,
        if_neg h, ih]

theorem getKV_appendPosting_ne {t t' : String} (hne : t' ≠ t) (p : Nat × Nat)
    (ts : List (String × List (Nat × Nat))) :
    getKV (appendPosting t p ts) t' = getKV ts t' := by
  induction ts with
  | nil => simp [appendPosting_nil, getKV_cons, getKV_nil, Ne.symm hne]
  | cons tp rest ih =>
    obtain ⟨t0, ps0⟩ := tp
    by_cases h : t0 = t
    · subst h
      rw [appendPosting_cons, if_pos rfl, getKV_cons, getKV_cons,
        if_neg (fun hc : t0 = t' => hne (hc ▸ rfl)),
        if_neg (fun hc : t0 = t' => hne (hc ▸ rfl))]
    · rw [appendPosting_cons, if_neg h, getKV_cons, getKV_cons]
      by_cases h' : t0 = t'
      · simp [h']
      · simp [h', ih]

theorem getKV_foldl_appendPosting (p : Nat × Nat) (L : List String)
    (hN : L.Nodup) (ts : List (String × List (Nat × Nat))) (t : String) :
    getKV (L.foldl (fun acc u => appendPosting u p acc) ts) t =
      if t ∈ L then some ((getKV ts t).getD [] ++ [p]) else getKV ts t := by
  induction L generalizing ts with
  | nil => simp
  | cons u L' ih =>
    rw [List.foldl_cons]
    have hN' : L'.Nodup := (List.nodup_cons.mp hN).2
    have hu : u ∉ L' := (List.nodup_cons.mp hN).1
    by_cases h : t = u
    · subst h
      rw [ih hN', if_neg hu, if_pos (List.mem_cons_self t L'),
        getKV_appendPosting_self]
    · rw [ih hN', getKV_appendPosting_ne h]
      by_cases hL : t ∈ L'
      · rw [if_pos hL, if_pos (List.mem_cons.mpr (Or.inr hL))]
      · rw [if_neg hL, if_neg (by simp [h, hL])]

theorem insertBy_nil {α : Type} (le : α → α → Bool) (a : α) :
    insertBy le a [] = [a] := rfl

theorem insertBy_cons {α : Type} (le : α → α → Bool) (a b : α) (r : List α) :
    insertBy le a (b :: r) =
      if le a b then a :: b :: r else b :: insertBy le a r := rfl

theorem mem_insertBy {α : Type} {le : α → α → Bool} {a x : α} {l : List α} :
    x ∈ insertBy le a l ↔ x = a ∨ x ∈ l := by
  induction l with
  | nil => simp [insertBy_nil]
  | cons b r ih =>
    rw [insertBy_cons]
    by_cases h : le a b
    · simp only [if_pos h, List.mem_cons]
    · simp only [if_neg h, List.mem_cons, ih]
      tauto

theorem mem_sortBy {α : Type} {le : α → α → Bool} {x : α} {l : List α} :
    x ∈ sortBy le l ↔ x ∈ l := by
  induction l with
  | nil => simp [sortBy]
  | cons a r ih =>
    rw [sortBy, mem_insertBy, ih, List.mem_cons]

theorem mem_sortDedup {s : String} {l : List String} :
    s ∈ sortDedup l ↔ s ∈ l := by
  rw [sortDedup, List.mem_dedup, mem_sortBy]

theorem nodup_sortDedup (l : List String) : (sortDedup l).Nodup :=
  List.nodup_dedup _

theorem index_item_token_scoring (E : Ext) (i : Index) (iid : Nat) (text : String) :
    (index_item E i iid text).token_scoring =
      (sortDedup (E.clean_words text)).foldl
        (fun acc u => appendPosting u (iid, 50) acc)
        ((sortDedup (E.gramify text)).foldl
          (fun acc u => appendPosting u (iid, 1) acc) i.token_scoring) := rfl

/-- C7: `index_item` deduplicates the grams and the words and appends, for
each token `t`, exactly one `(iid, 1)` posting when `t` is among the grams
and exactly one `(iid, 50)` posting when `t` is among the words (gram
posting first), creating the postings list when the token was absent; all
other postings lists are untouched. -/
theorem index_item_postings (E : Ext) (i : Index) (iid : Nat) (text t : String) :
    getKV (index_item E i iid text).token_scoring t =
      if t ∈ E.gramify text ∨ t ∈ E.clean_words text then
        some ((getKV i.token_scoring t).getD []
          ++ (if t ∈ E.gramify text then [(iid, 1)] else [])
          ++ (if t ∈ E.clean_words text then [(iid, 50)] else []))
      else getKV i.token_scoring t := by
  rw [index_item_token_scoring,
    getKV_foldl_appendPosting _ _ (nodup_sortDedup _),
    getKV_foldl_appendPosting _ _ (nodup_sortDedup _)]
  by_cases hg : t ∈ E.gramify text <;> by_cases hw : t ∈ E.clean_words text
  · rw [if_pos (mem_sortDedup.mpr hw), if_pos (mem_sortDedup.mpr hg),
      if_pos (Or.inl hg), if_pos hg, if_pos hw]
    simp [List.append_assoc]
  · rw [if_neg (fun hc => hw (mem_sortDedup.mp hc)),
      if_pos (mem_sortDedup.mpr hg), if_pos (Or.inl hg), if_pos hg,
      if_neg hw]
    simp
  · rw [if_pos (mem_sortDedup.mpr hw),
      if_neg (fun hc => hg (mem_sortDedup.mp hc)), if_pos (Or.inr hw),
      if_neg hg, if_pos hw]
    simp
  · rw [if_neg (fun hc => hw (mem_sortDedup.mp hc)),
      if_neg (fun hc => hg (mem_sortDedup.mp hc)),
      if_neg (by simp [hg, hw])]

/-! ## Descending sort lemmas (query path) -/

theorem pairwise_insertBy {α : Type} {R : α → α → Prop} {le : α → α → Bool}
    (h1 : ∀ x y, le x y = true → R x y) (h2 : ∀ x y, le x y = false → R y x)
    (htr : ∀ x y z, R x y → R y z → R x z)
    {l : List α} (hl : l.Pairwise R) (a : α) :
    (insertBy le a l).Pairwise R := by
  induction l with
  | nil => simp [insertBy_nil]
  | cons b r ih =>
    rw [insertBy_cons]
    rcases List.pairwise_cons.mp hl with ⟨hbr, hr⟩
    by_cases h : le a b
    · rw [if_pos h]
      refine List.pairwise_cons.mpr ⟨?_, hl⟩
      intro y hy
      rcases List.mem_cons.mp hy with hy | hy
      · exact hy ▸ h1 a b h
      · exact htr a b y (h1 a b h) (hbr y hy)
    · rw [if_neg h]
      refine List.pairwise_cons.mpr ⟨?_, ih hr⟩
      intro y hy
      rcases mem_insertBy.mp hy with hy | hy
      · exact hy ▸ h2 a b (by simpa using h)
      · exact hbr y hy

theorem sortDesc_pairwise (l : List (Nat × Rat)) :
    (sortDesc l).Pairwise (fun a b => b.2 ≤ a.2) := by
  induction l with
  | nil => simp [sortDesc, sortBy]
  | cons a r ih =>
    rw [sortDesc, sortBy]
    refine pairwise_insertBy ?_ ?_ ?_ ih a
    · intro x y h
      simpa using h
    · intro x y h
      simp only [decide_eq_false_iff_not, not_le] at h
      exact le_of_lt h
    · intro x y z hxy hyz
      exact le_trans hyz hxy

theorem mem_sortDesc {x : Nat × Rat} {l : List (Nat × Rat)} :
    x ∈ sortDesc l ↔ x ∈ l := mem_sortBy

theorem sortDesc_eq_nil_iff {l : List (Nat × Rat)} :
    sortDesc l = [] ↔ l = [] := by
  constructor
  · intro h
    cases l with
    | nil => rfl
    | cons a r =>
      have : a ∈ sortDesc (a :: r) := mem_sortDesc.mpr (List.mem_cons_self a r)
      rw [h] at this
      cases this
  · intro h
    rw [h]
    rfl

theorem sortDesc_head_mem {l : List (Nat × Rat)} {top : Nat × Rat}
    (h : (sortDesc l).head? = some top) : top ∈ l := by
  cases hs : sortDesc l with
  | nil => rw [hs] at h; cases h
  | cons a r =>
    rw [hs] at h
    have : a = top := by simpa using h
    subst this
    exact mem_sortDesc.mp (hs ▸ List.mem_cons_self a r)

theorem sortDesc_head_ge {l : List (Nat × Rat)} {top p : Nat × Rat}
    (h : (sortDesc l).head? = some top) (hp : p ∈ l) : p.2 ≤ top.2 := by
  cases hs : sortDesc l with
  | nil =>
    rw [(sortDesc_eq_nil_iff).mp hs] at hp
    cases hp
  | cons a r =>
    rw [hs] at h
    have ha : a = top := by simpa using h
    subst ha
    have hmem : p ∈ a :: r := hs ▸ mem_sortDesc.mpr hp
    rcases List.mem_cons.mp hmem with hq | hq
    · rw [hq]
    · have hpw := sortDesc_pairwise l
      rw [hs] at hpw
      exact (List.pairwise_cons.mp hpw).1 p hq

/-! ## Score accumulation lemmas -/

theorem bump_nil (id : Nat) (w : Rat) : bump id w [] = [(id, w)] := rfl

theorem bump_cons (id : Nat) (w : Rat) (i : Nat) (s : Rat) (rest : List (Nat × Rat)) :
    bump id w ((i, s) :: rest) =
      if i = id then (i, s + w) :: rest else (i, s) :: bump id w rest := rfl

theorem bump_nonneg {id : Nat} {w : Rat} {acc : List (Nat × Rat)} (hw : 0 ≤ w)
    (hacc : ∀ p ∈ acc, 0 ≤ p.2) : ∀ p ∈ bump id w acc, 0 ≤ p.2 := by
  induction acc with
  | nil =>
    intro p hp
    rw [bump_nil] at hp
    rcases List.mem_singleton.mp hp with rfl
    exact hw
  | cons q rest ih =>
    obtain ⟨i, s⟩ := q
    intro p hp
    rw [bump_cons] at hp
    by_cases h : i = id
    · rw [if_pos h] at hp
      rcases List.mem_cons.mp hp with rfl | hp
      · exact add_nonneg (hacc (i, s) (List.mem_cons_self _ _)) hw
      · exact hacc p (List.mem_cons.mpr (Or.inr hp))
    · rw [if_neg h] at hp
      rcases List.mem_cons.mp hp with rfl | hp
      · exact hacc (i, s) (List.mem_cons_self _ _)
      · exact ih (fun r hr => hacc r (List.mem_cons.mpr (Or.inr hr))) p hp

theorem mem_bump {id : Nat} {w : Rat} {acc : List (Nat × Rat)} {x : Nat × Rat}
    (h : x ∈ bump id w acc) : x.1 = id ∨ x.1 ∈ keys acc := by
  induction acc with
  | nil =>
    rw [bump_nil] at h
    rcases List.mem_singleton.mp h with rfl
    exact Or.inl rfl
  | cons q rest ih =>
    obtain ⟨i, s⟩ := q
    rw [bump_cons] at h
    by_cases hi : i = id
    · rw [if_pos hi] at h
      rcases List.mem_cons.mp h with rfl | h
      · exact Or.inl hi
      · exact Or.inr (List.mem_cons.mpr (Or.inr (List.mem_map_of_mem Prod.fst h)))
    · rw [if_neg hi] at h
      rcases List.mem_cons.mp h with rfl | h
      · exact Or.inr (List.mem_cons.mpr (Or.inl rfl))
      · rcases ih h with h | h
        · exact Or.inl h
        · exact Or.inr (List.mem_cons.mpr (Or.inr h))

theorem postings_foldl_nonneg (postings : List (Nat × Nat))
    (acc : List (Nat × Rat)) (hacc : ∀ p ∈ acc, 0 ≤ p.2) :
    ∀ p ∈ postings.foldl (fun a q => bump q.1 (q.2 : Rat) a) acc, 0 ≤ p.2 := by
  induction postings generalizing acc with
  | nil => exact hacc
  | cons q rest ih =>
    rw [List.foldl_cons]
    exact ih _ (bump_nonneg (by positivity) hacc)

theorem accumScores_foldl_nonneg (ts : List (String × List (Nat × Nat)))
    (tokens : List String) (acc : List (Nat × Rat)) (hacc : ∀ p ∈ acc, 0 ≤ p.2) :
    ∀ p ∈ tokens.foldl (fun acc tok =>
        match getKV ts tok with
        | none => acc
        | some postings => postings.foldl (fun a q => bump q.1 (q.2 : Rat) a) acc)
      acc, 0 ≤ p.2 := by
  induction tokens generalizing acc with
  | nil => exact hacc
  | cons tok rest ih =>
    rw [List.foldl_cons]
    cases hkv : getKV ts tok with
    | none => simpa [hkv] using ih acc hacc
    | some postings => simpa [hkv] using ih _ (postings_foldl_nonneg _ _ hacc)

theorem scoreList_nonneg (E : Ext) (i : Index) (q : String) :
    ∀ p ∈ scoreList E i q, 0 ≤ p.2 := by
  exact accumScores_foldl_nonneg i.token_scoring _ [] (by simp)

/-- C5: the coarse pruning stage.  If no query token matched (empty score
map) the result of `get_key_score_list` is empty; and a candidate survives
into the coarse candidate list handed to the fuzzy rerank exactly when its
accumulated score `s` satisfies `highest ≤ 2 * s`, i.e. is at least half of
the maximum accumulated score. -/
theorem coarse_pruning (E : Ext) (i : Index) (q : String) (id : Nat) (s : Rat) :
    (scoreList E i q = [] → get_key_score_list E i q = some []) ∧
    ((id, s) ∈ coarseCandidates E i q ↔
      ((id, s) ∈ scoreList E i q ∧ ∀ p ∈ scoreList E i q, p.2 ≤ 2 * s)) := by
  constructor
  · intro h
    simp only [get_key_score_list, h]
    simp
  · by_cases hnil : scoreList E i q = []
    · simp [coarseCandidates, hnil, sortDesc, sortBy]
    · obtain ⟨top, rest, hs⟩ : ∃ top rest,
          sortDesc (scoreList E i q) = top :: rest := by
        cases hsd : sortDesc (scoreList E i q) with
        | nil => exact absurd (sortDesc_eq_nil_iff.mp hsd) hnil
        | cons a r => exact ⟨a, r, rfl⟩
      have htop : (sortDesc (scoreList E i q)).head? = some top := by
        rw [hs]; rfl
      have htop_mem : top ∈ scoreList E i q := sortDesc_head_mem htop
      have htop_ge : ∀ p ∈ scoreList E i q, p.2 ≤ top.2 :=
        fun p hp => sortDesc_head_ge htop hp
      have hcc : coarseCandidates E i q =
          (sortDesc (scoreList E i q)).filter (fun x => decide (top.2 / 2 ≤ x.2)) := by
        simp only [coarseCandidates, htop]
      rw [hcc]
      rw [List.mem_filter, mem_sortDesc]
      constructor
      · rintro ⟨hmem, hhalf⟩
        have hhalf' : top.2 / 2 ≤ s := by simpa using hhalf
        have h2 : top.2 ≤ 2 * s := by
          rw [div_le_iff₀ (by norm_num : (0 : Rat) < 2)] at hhalf'
          linarith
        exact ⟨hmem, fun p hp => le_trans (htop_ge p hp) h2⟩
      · rintro ⟨hmem, hall⟩
        refine ⟨hmem, ?_⟩
        have := hall top htop_mem
        simp only [decide_eq_true_eq]
        rw [div_le_iff₀ (by norm_num : (0 : Rat) < 2)]
        linarith

/-- C5 witness: with postings giving candidate 0 the accumulated score 100
and candidate 1 the score 40, candidate 1 is excluded from the coarse
candidate list (40 < 100 / 2); and a query matching no indexed token yields
an empty result. -/
theorem coarse_pruning_witness :
    ((1 : Nat), (40 : Rat)) ∉ coarseCandidates extGramOnly idxPrune "q" ∧
    get_key_score_list extGramOnly idxPrune "zz" = some [] := by
  constructor
  · intro hmem
    have hsl : scoreList extGramOnly idxPrune "q" = [(0, 100), (1, 40)] := rfl
    have h := ((coarse_pruning extGramOnly idxPrune "q" 1 40).2.mp hmem).2
    have h0 := h (0, 100) (by rw [hsl]; exact List.mem_cons_self _ _)
    norm_num at h0
  · exact (coarse_pruning extGramOnly idxPrune "zz" 0 0).1 rfl

/-! ## The dead second filter (claim C6) -/

theorem get_key_score_list_eq_noDeadFilter (E : Ext) (i : Index) (q : String) :
    get_key_score_list E i q = get_key_score_list_noDeadFilter E i q := by
  simp only [get_key_score_list, get_key_score_list_noDeadFilter]
  by_cases hlen : (scoreList E i q).length = 0
  · rw [if_pos hlen, if_pos hlen]
  · rw [if_neg hlen, if_neg hlen]
    have hnil : scoreList E i q ≠ [] := fun hc => hlen (by simp [hc])
    obtain ⟨top, rest, hs⟩ : ∃ top rest,
        sortDesc (scoreList E i q) = top :: rest := by
      cases hsd : sortDesc (scoreList E i q) with
      | nil => exact absurd (sortDesc_eq_nil_iff.mp hsd) hnil
      | cons a r => exact ⟨a, r, rfl⟩
    have htopnn : 0 ≤ top.2 :=
      scoreList_nonneg E i q top (mem_sortDesc.mp (hs ▸ List.mem_cons_self top rest))
    have hcc0 : coarseCandidates E i q =
        List.filter (fun x => decide (top.2 / 2 ≤ x.2)) (top :: rest) := by
      simp only [coarseCandidates]
      rw [hs]
      rfl
    have hfilter : coarseCandidates E i q =
        top :: rest.filter (fun x => decide (top.2 / 2 ≤ x.2)) := by
      rw [hcc0, List.filter_cons, if_pos (decide_eq_true (half_le_self htopnn))]
    rw [hfilter]
    cases hfz : fuzzyLoop E i q (top :: rest.filter (fun x => decide (top.2 / 2 ≤ x.2))) with
    | none => rfl
    | some fz => rfl

/-- C6: the second threshold filter (recomputing `highest` from the coarse
list and retaining its entries scoring at least `highest / 4` after the
fuzzy scores have been collected, lines 204–206) has no effect: `search`
returns the same list as the variant with that step removed, on every index
state and query. -/
theorem search_second_filter_noop (E : Ext) (i : Index) (q : String) :
    search E i q = search_noDeadFilter E i q := by
  simp only [search, search_noDeadFilter, get_key_score_list_eq_noDeadFilter]

/-! ## Operation inversion and projection lemmas -/

theorem index_item_items (E : Ext) (i : Index) (iid : Nat) (s : String) :
    (index_item E i iid s).items = i.items := rfl

theorem index_item_id_map (E : Ext) (i : Index) (iid : Nat) (s : String) :
    (index_item E i iid s).id_map = i.id_map := rfl

theorem index_item_id_counter (E : Ext) (i : Index) (iid : Nat) (s : String) :
    (index_item E i iid s).id_counter = i.id_counter := rfl

theorem add_items (E : Ext) (i : Index) (id : String) (obj : Value) (tok : String) :
    (add E i id obj tok).items = upsert i.id_counter obj i.items := rfl

theorem add_id_map (E : Ext) (i : Index) (id : String) (obj : Value) (tok : String) :
    (add E i id obj tok).id_map = upsert id i.id_counter i.id_map := rfl

theorem add_id_counter (E : Ext) (i : Index) (id : String) (obj : Value) (tok : String) :
    (add E i id obj tok).id_counter = i.id_counter + 1 := rfl

theorem add_object_ok {E : Ext} {i : Index} {obj : Value} {i' : Index}
    (h : add_object E i obj = .ok i') :
    ∃ s, (getField obj "_id").asStr = some s ∧
      i' = add E i s obj (trimStr (extract_fields obj i.fields)) := by
  unfold add_object at h
  cases hid : (getField obj "_id").asStr with
  | none => rw [hid] at h; cases h
  | some s =>
    rw [hid] at h
    exact ⟨s, rfl, (Except.ok.inj h).symm⟩

theorem update_ok {E : Ext} {i : Index} {obj : Value} {i' : Index}
    (h : update E i obj = .ok i') :
    ∃ s iid, (getField obj "_id").asStr = some s ∧
      getKV i.id_map s = some iid ∧
      i' = index_item E { i with
        token_scoring := stripId iid i.token_scoring,
        items := upsert iid obj i.items } iid
        (trimStr (extract_fields obj i.fields)) := by
  simp only [update] at h
  split at h
  · cases h
  · rename_i s hs
    split at h
    · cases h
    · rename_i iid hiid
      exact ⟨s, iid, hs, hiid, (Except.ok.inj h).symm⟩

/-! ## The identity invariant (claim C2) -/

theorem goodIdx_create (fields : List String) : GoodIdx (create fields) := by
  refine ⟨List.nodup_nil, List.nodup_nil, ?_, ?_, ?_⟩
  · intro iid h
    cases h
  · intro iid
    constructor
    · intro h
      cases h
    · rintro ⟨e, he⟩
      cases he
  · intro e1 e2 iid h1 h2
    cases h1

theorem goodIdx_clear (i : Index) : GoodIdx (clear i) := by
  refine ⟨List.nodup_nil, List.nodup_nil, ?_, ?_, ?_⟩
  · intro iid h
    cases h
  · intro iid
    constructor
    · intro h
      cases h
    · rintro ⟨e, he⟩
      cases he
  · intro e1 e2 iid h1 h2
    cases h1

theorem goodIdx_add {E : Ext} {i : Index} {id : String} {obj : Value} {tok : String}
    (h : GoodIdx i) (hfresh : getKV i.id_map id = none) :
    GoodIdx (add E i id obj tok) := by
  obtain ⟨h1, h2, h3, h4, h5⟩ := h
  have hidfresh : id ∉ keys i.id_map := getKV_eq_none_iff.mp hfresh
  have hcfresh : i.id_counter ∉ keys i.items := fun hc => lt_irrefl _ (h3 _ hc)
  refine ⟨?_, ?_, ?_, ?_, ?_⟩
  · rw [add_items]
    exact nodup_keys_upsert h1
  · rw [add_id_map]
    exact nodup_keys_upsert h2
  · intro iid hiid
    rw [add_items] at hiid
    rw [add_id_counter]
    rcases mem_keys_upsert.mp hiid with rfl | hiid
    · exact Nat.lt_succ_self _
    · exact Nat.lt_succ_of_lt (h3 _ hiid)
  · intro iid
    rw [add_items, add_id_map]
    constructor
    · intro hiid
      rcases mem_keys_upsert.mp hiid with rfl | hiid
      · exact ⟨id, getKV_upsert_self id i.id_counter i.id_map⟩
      · obtain ⟨e, he⟩ := (h4 iid).mp hiid
        have hne : e ≠ id := by
          rintro rfl
          rw [hfresh] at he
          cases he
        exact ⟨e, by rw [getKV_upsert_ne hne]; exact he⟩
    · rintro ⟨e, he⟩
      by_cases hne : e = id
      · subst hne
        rw [getKV_upsert_self] at he
        have : iid = i.id_counter := (Option.some.inj he).symm
        subst this
        exact mem_keys_upsert.mpr (Or.inl rfl)
      · rw [getKV_upsert_ne hne] at he
        exact mem_keys_upsert.mpr (Or.inr ((h4 iid).mpr ⟨e, he⟩))
  · intro e1 e2 iid he1 he2
    rw [add_id_map] at he1 he2
    by_cases h1e : e1 = id <;> by_cases h2e : e2 = id
    · rw [h1e, h2e]
    · subst h1e
      rw [getKV_upsert_self] at he1
      rw [getKV_upsert_ne h2e] at he2
      have : iid = i.id_counter := (Option.some.inj he1).symm
      subst this
      exact absurd ((h4 _).mpr ⟨e2, he2⟩) hcfresh
    · subst h2e
      rw [getKV_upsert_self] at he2
      rw [getKV_upsert_ne h1e] at he1
      have : iid = i.id_counter := (Option.some.inj he2).symm
      subst this
      exact absurd ((h4 _).mpr ⟨e1, he1⟩) hcfresh
    · rw [getKV_upsert_ne h1e] at he1
      rw [getKV_upsert_ne h2e] at he2
      exact h5 e1 e2 iid he1 he2

theorem goodIdx_update {E : Ext} {i : Index} {obj : Value} {i' : Index}
    (h : GoodIdx i) (hok : update E i obj = .ok i') : GoodIdx i' := by
  obtain ⟨s, iid, hid, hiid, rfl⟩ := update_ok hok
  obtain ⟨h1, h2, h3, h4, h5⟩ := h
  have hmem : iid ∈ keys i.items := (h4 iid).mpr ⟨s, hiid⟩
  have hkeys : keys (upsert iid obj i.items) = keys i.items :=
    keys_upsert_of_mem hmem obj
  refine ⟨?_, ?_, ?_, ?_, ?_⟩ <;>
    simp only [index_item_items, index_item_id_map, index_item_id_counter]
  · rw [hkeys]
    exact h1
  · exact h2
  · intro iid' hiid'
    rw [hkeys] at hiid'
    exact h3 _ hiid'
  · intro iid'
    rw [hkeys]
    exact h4 iid'
  · exact h5

theorem goodIdx_remove {i : Index} (h : GoodIdx i) (id : String) :
    GoodIdx (remove i id).2 := by
  cases hiid : getKV i.id_map id with
  | none =>
    rw [remove_of_none hiid]
    exact h
  | some iid =>
    rw [remove_of_some hiid]
    obtain ⟨h1, h2, h3, h4, h5⟩ := h
    refine ⟨nodup_keys_eraseKey h1, nodup_keys_eraseKey h2, ?_, ?_, ?_⟩
    · intro iid' hiid'
      exact h3 _ (mem_keys_eraseKey.mp hiid').2
    · intro iid'
      constructor
      · intro hiid'
        obtain ⟨hne, hiid'⟩ := mem_keys_eraseKey.mp hiid'
        obtain ⟨e, he⟩ := (h4 iid').mp hiid'
        have hene : e ≠ id := by
          rintro rfl
          rw [hiid] at he
          exact hne (Option.some.inj he).symm
        exact ⟨e, by rw [getKV_eraseKey_ne hene]; exact he⟩
      · rintro ⟨e, he⟩
        by_cases hene : e = id
        · subst hene
          rw [getKV_eraseKey_self] at he
          cases he
        · rw [getKV_eraseKey_ne hene] at he
          refine mem_keys_eraseKey.mpr ⟨?_, (h4 iid').mpr ⟨e, he⟩⟩
          rintro rfl
          exact hene (h5 e id iid' he hiid)
    · intro e1 e2 iid' he1 he2
      by_cases h1e : e1 = id
      · subst h1e
        rw [getKV_eraseKey_self] at he1
        cases he1
      · by_cases h2e : e2 = id
        · subst h2e
          rw [getKV_eraseKey_self] at he2
          cases he2
        · rw [getKV_eraseKey_ne h1e] at he1
          rw [getKV_eraseKey_ne h2e] at he2
          exact h5 e1 e2 iid' he1 he2

theorem goodIdx_of_reachableDF {E : Ext} {i : Index} (h : ReachableDF E i) :
    GoodIdx i := by
  induction h with
  | step_create fields => exact goodIdx_create fields
  | step_clear _ ih => exact goodIdx_clear _
  | step_add _ hfresh hok ih =>
    obtain ⟨s, hs, rfl⟩ := add_object_ok hok
    exact goodIdx_add ih (hfresh s hs)
  | step_update _ hok ih => exact goodIdx_update ih hok
  | step_remove id _ ih => exact goodIdx_remove ih id

theorem idBij_of_goodIdx {i : Index} (h : GoodIdx i) : IdBij i := by
  obtain ⟨-, -, -, h4, h5⟩ := h
  constructor
  · intro iid hiid
    obtain ⟨e, he⟩ := (h4 iid).mp hiid
    exact ⟨e, he, fun e' he' => h5 e' e iid he' he⟩
  · intro e iid he
    exact (h4 iid).mpr ⟨e, he⟩

/-- C2 (amended): in every state reachable by sequences of the public
operations in which `add_object` is never called with an external id already
present in the Identity Map, the Identity Map is a bijection between the
Document Store's internal ids and the external ids. -/
theorem identity_map_bijection {E : Ext} {i : Index} (h : ReachableDF E i) :
    IdBij i :=
  idBij_of_goodIdx (goodIdx_of_reachableDF h)

/-- C2 witness: the bijection holds in the duplicate-free reachable state
with one stored document. -/
theorem identity_map_bijection_witness : IdBij idxOne :=
  identity_map_bijection
    (@ReachableDF.step_add extTrivial (create []) docA idxOne
      (ReachableDF.step_create []) (fun s _ => rfl) rfl)

/-- C2 counterexample to the claim as stated: the state reached by adding a
document with external id `"a"` twice is reachable by the public operations,
yet internal id 0 is a key of the Document Store with no external id mapping
to it, so the Identity Map is not a bijection there. -/
theorem identity_map_bijection_counterexample :
    Reachable extTrivial idxDup ∧ ¬ IdBij idxDup := by
  constructor
  · exact @Reachable.step_add extTrivial idxOne docA idxDup
      (@Reachable.step_add extTrivial (create []) docA idxOne
        (Reachable.step_create []) rfl) rfl
  · intro hbij
    obtain ⟨e, he, -⟩ := hbij.1 0 (by decide)
    have he' : (if "a" = e then some 1 else none) = some 0 := he
    by_cases h : "a" = e
    · rw [if_pos h] at he'
      simp at he'
    · rw [if_neg h] at he'
      cases he'

/-! ## Postings closure (claims C10 and C9) -/

theorem mem_appendPosting {t : String} {p : Nat × Nat}
    {ts : List (String × List (Nat × Nat))} {tp : String × List (Nat × Nat)}
    (h : tp ∈ appendPosting t p ts) :
    ∀ x ∈ tp.2, (∃ tp' ∈ ts, x ∈ tp'.2) ∨ x = p := by
  induction ts with
  | nil =>
    rw [appendPosting_nil] at h
    rcases List.mem_singleton.mp h with rfl
    intro x hx
    rcases List.mem_singleton.mp hx with rfl
    exact Or.inr rfl
  | cons tq rest ih =>
    obtain ⟨t0, ps0⟩ := tq
    rw [appendPosting_cons] at h
    by_cases ht : t0 = t
    · rw [if_pos ht] at h
      rcases List.mem_cons.mp h with rfl | h
      · intro x hx
        rcases List.mem_append.mp hx with hx | hx
        · exact Or.inl ⟨(t0, ps0), List.mem_cons_self _ _, hx⟩
        · rcases List.mem_singleton.mp hx with rfl
          exact Or.inr rfl
      · intro x hx
        exact Or.inl ⟨tp, List.mem_cons.mpr (Or.inr h), hx⟩
    · rw [if_neg ht] at h
      rcases List.mem_cons.mp h with rfl | h
      · intro x hx
        exact Or.inl ⟨(t0, ps0), List.mem_cons_self _ _, hx⟩
      · intro x hx
        rcases ih h x hx with ⟨tp', htp', hx'⟩ | hx'
        · exact Or.inl ⟨tp', List.mem_cons.mpr (Or.inr htp'), hx'⟩
        · exact Or.inr hx'

theorem mem_foldl_appendPosting {p : Nat × Nat} {L : List String}
    {ts : List (String × List (Nat × Nat))} {tp : String × List (Nat × Nat)}
    (h : tp ∈ L.foldl (fun acc u => appendPosting u p acc) ts) :
    ∀ x ∈ tp.2, (∃ tp' ∈ ts, x ∈ tp'.2) ∨ x = p := by
  induction L generalizing ts with
  | nil => exact fun x hx => Or.inl ⟨tp, h, hx⟩
  | cons u L' ih =>
    rw [List.foldl_cons] at h
    intro x hx
    rcases ih h x hx with ⟨tp', htp', hx'⟩ | hx'
    · exact mem_appendPosting htp' x hx'
    · exact Or.inr hx'

theorem mem_index_item_postings {E : Ext} {i : Index} {iid : Nat} {text : String}
    {tp : String × List (Nat × Nat)}
    (h : tp ∈ (index_item E i iid text).token_scoring) :
    ∀ x ∈ tp.2, (∃ tp' ∈ i.token_scoring, x ∈ tp'.2) ∨ x.1 = iid := by
  rw [index_item_token_scoring] at h
  intro x hx
  rcases mem_foldl_appendPosting h x hx with h1 | h1
  · obtain ⟨tp', htp', hx'⟩ := h1
    rcases mem_foldl_appendPosting htp' x hx' with h2 | h2
    · exact Or.inl h2
    · exact Or.inr (by rw [h2])
  · exact Or.inr (by rw [h1])

theorem postingsClosed_create (fields : List String) :
    PostingsClosed (create fields) := by
  intro tp htp
  cases htp

theorem postingsClosed_clear (i : Index) : PostingsClosed (clear i) := by
  intro tp htp
  cases htp

theorem postingsClosed_add {E : Ext} {i : Index} {id : String} {obj : Value}
    {tok : String} (h : PostingsClosed i) : PostingsClosed (add E i id obj tok) := by
  intro tp htp x hx
  have hitems : (add E i id obj tok).items = upsert i.id_counter obj i.items :=
    add_items E i id obj tok
  rw [hitems]
  have htp' : tp ∈ (index_item E { i with
      id_map := upsert id i.id_counter i.id_map,
      id_counter := i.id_counter + 1,
      items := upsert i.id_counter obj i.items } i.id_counter tok).token_scoring := htp
  rcases mem_index_item_postings htp' x hx with ⟨tq, htq, hx'⟩ | hx'
  · exact mem_keys_upsert.mpr (Or.inr (h tq htq x hx'))
  · exact mem_keys_upsert.mpr (Or.inl hx')

theorem postingsClosed_update {E : Ext} {i : Index} {obj : Value} {i' : Index}
    (h : PostingsClosed i) (hok : update E i obj = .ok i') : PostingsClosed i' := by
  obtain ⟨s, iid, hid, hiid, rfl⟩ := update_ok hok
  intro tp htp x hx
  rw [index_item_items]
  have htp' : tp ∈ (index_item E { i with
      token_scoring := stripId iid i.token_scoring,
      items := upsert iid obj i.items } iid
      (trimStr (extract_fields obj i.fields))).token_scoring := htp
  rcases mem_index_item_postings htp' x hx with ⟨tq, htq, hx'⟩ | hx'
  · obtain ⟨-, -, tq', htq', -, hsub⟩ := mem_stripId htq
    exact mem_keys_upsert.mpr (Or.inr (h tq' htq' x (hsub x hx')))
  · exact mem_keys_upsert.mpr (Or.inl hx')

theorem postingsClosed_remove {i : Index} (h : PostingsClosed i) (id : String) :
    PostingsClosed (remove i id).2 := by
  cases hiid : getKV i.id_map id with
  | none =>
    rw [remove_of_none hiid]
    exact h
  | some iid =>
    rw [remove_of_some hiid]
    intro tp htp x hx
    obtain ⟨-, hnot, tq', htq', -, hsub⟩ := mem_stripId htp
    exact mem_keys_eraseKey.mpr ⟨hnot x hx, h tq' htq' x (hsub x hx)⟩

theorem postingsClosed_of_reachable {E : Ext} {i : Index} (h : Reachable E i) :
    PostingsClosed i := by
  induction h with
  | step_create fields => exact postingsClosed_create fields
  | step_clear _ ih => exact postingsClosed_clear _
  | step_add _ hok ih =>
    obtain ⟨s, hs, rfl⟩ := add_object_ok hok
    exact postingsClosed_add ih
  | step_update _ hok ih => exact postingsClosed_update ih hok
  | step_remove id _ ih => exact postingsClosed_remove ih id

/-- C10: in every state reachable by the public operations, every internal
id occurring in any postings list of the Inverted Index is a key of the
Document Store, so resolving it back to a stored payload succeeds. -/
theorem postings_ids_resolvable {E : Ext} {i : Index} (h : Reachable E i) :
    ∀ t ps, getKV i.token_scoring t = some ps →
      ∀ p ∈ ps, (getKV i.items p.1).isSome = true := by
  intro t ps hts p hp
  have hk := postingsClosed_of_reachable h (t, ps) (getKV_mem hts) p hp
  obtain ⟨v, hv⟩ := exists_getKV_of_mem_keys hk
  rw [hv]
  rfl

/-- C10 witness: in the reachable one-document index on fields
`["title"]`, the posting `(0, 1)` of token `"x"` resolves to the stored
payload. -/
theorem postings_ids_resolvable_witness :
    (getKV idxTitle.items 0).isSome = true := by
  have hr : Reachable extWhole idxTitle :=
    @Reachable.step_add extWhole (create ["title"]) docT idxTitle
      (Reachable.step_create ["title"]) rfl
  exact postings_ids_resolvable hr "x" [(0, 1), (0, 50)] rfl (0, 1)
    (List.mem_cons_self _ _)

/-! ## Totality of the query path (claim C9) -/

theorem mem_keys_bump {id : Nat} {w : Rat} {acc : List (Nat × Rat)} {n : Nat}
    (h : n ∈ keys (bump id w acc)) : n = id ∨ n ∈ keys acc := by
  simp only [keys, List.mem_map] at h
  obtain ⟨x, hx, rfl⟩ := h
  exact mem_bump hx

theorem mem_keys_foldl_bump {postings : List (Nat × Nat)} {acc : List (Nat × Rat)}
    {n : Nat}
    (h : n ∈ keys (postings.foldl (fun a q' => bump q'.1 (q'.2 : Rat) a) acc)) :
    n ∈ keys acc ∨ ∃ q ∈ postings, n = q.1 := by
  induction postings generalizing acc with
  | nil => exact Or.inl h
  | cons q rest ih =>
    rw [List.foldl_cons] at h
    rcases ih h with h1 | h1
    · rcases mem_keys_bump h1 with h2 | h2
      · exact Or.inr ⟨q, List.mem_cons_self _ _, h2⟩
      · exact Or.inl h2
    · obtain ⟨q', hq', hn⟩ := h1
      exact Or.inr ⟨q', List.mem_cons.mpr (Or.inr hq'), hn⟩

theorem accumScores_foldl_ids (ts : List (String × List (Nat × Nat)))
    (tokens : List String) (acc : List (Nat × Rat)) (n : Nat)
    (h : n ∈ keys (tokens.foldl (fun acc tok =>
        match getKV ts tok with
        | none => acc
        | some postings =>
            postings.foldl (fun a q' => bump q'.1 (q'.2 : Rat) a) acc) acc)) :
    n ∈ keys acc ∨ ∃ tp ∈ ts, ∃ p ∈ tp.2, n = p.1 := by
  induction tokens generalizing acc with
  | nil => exact Or.inl h
  | cons tok rest ih =>
    rw [List.foldl_cons] at h
    rcases ih _ h with h1 | h1
    · cases hkv : getKV ts tok with
      | none =>
        rw [hkv] at h1
        exact Or.inl h1
      | some postings =>
        rw [hkv] at h1
        rcases mem_keys_foldl_bump h1 with h2 | h2
        · exact Or.inl h2
        · obtain ⟨p, hp, hnp⟩ := h2
          exact Or.inr ⟨(tok, postings), getKV_mem hkv, p, hp, hnp⟩
    · exact Or.inr h1

theorem scoreList_ids {E : Ext} {i : Index} {q : String} {n : Nat}
    (h : n ∈ keys (scoreList E i q)) :
    ∃ tp ∈ i.token_scoring, ∃ p ∈ tp.2, n = p.1 := by
  rcases accumScores_foldl_ids i.token_scoring
      (E.gramify q ++ E.clean_words q) [] n h with h1 | h1
  · cases h1
  · exact h1

theorem mem_coarseCandidates {E : Ext} {i : Index} {q : String} {x : Nat × Rat}
    (h : x ∈ coarseCandidates E i q) : x ∈ scoreList E i q := by
  cases hhd : (sortDesc (scoreList E i q)).head? with
  | none =>
    simp [coarseCandidates, hhd] at h
  | some top =>
    simp only [coarseCandidates, hhd] at h
    exact mem_sortDesc.mp (List.mem_filter.mp h).1

theorem fuzzyLoop_nil (E : Ext) (i : Index) (q : String) :
    fuzzyLoop E i q [] = some [] := rfl

theorem fuzzyLoop_cons (E : Ext) (i : Index) (q : String) (id : Nat) (s : Rat)
    (rest : List (Nat × Rat)) :
    fuzzyLoop E i q ((id, s) :: rest) =
      match getKV i.items id with
      | none => none
      | some item =>
        match fuzzyLoop E i q rest with
        | none => none
        | some tail =>
          match E.best_match q (extract_fields item i.fields) with
          | none => some tail
          | some score => some ((id, (score : Rat)) :: tail) := rfl

theorem fuzzyLoop_some {E : Ext} {i : Index} {q : String} {ksl : List (Nat × Rat)}
    (h : ∀ x ∈ ksl, x.1 ∈ keys i.items) :
    ∃ fz, fuzzyLoop E i q ksl = some fz ∧ ∀ y ∈ fz, y.1 ∈ keys i.items := by
  induction ksl with
  | nil =>
    refine ⟨[], rfl, ?_⟩
    intro y hy
    cases hy
  | cons x rest ih =>
    obtain ⟨id, s⟩ := x
    obtain ⟨item, hitem⟩ :=
      exists_getKV_of_mem_keys (h (id, s) (List.mem_cons_self _ _))
    obtain ⟨tail, htail, htailids⟩ :=
      ih (fun y hy => h y (List.mem_cons.mpr (Or.inr hy)))
    cases hbm : E.best_match q (extract_fields item i.fields) with
    | none =>
      refine ⟨tail, ?_, htailids⟩
      simp only [fuzzyLoop_cons, hitem, htail, hbm]
    | some score =>
      refine ⟨(id, (score : Rat)) :: tail, ?_, ?_⟩
      · simp only [fuzzyLoop_cons, hitem, htail, hbm]
      · intro y hy
        rcases List.mem_cons.mp hy with rfl | hy
        · exact h (id, s) (List.mem_cons_self _ _)
        · exact htailids y hy

theorem resolveItems_nil (items : List (Nat × Value)) :
    resolveItems items [] = some [] := rfl

theorem resolveItems_cons (items : List (Nat × Value)) (id : Nat) (s : Rat)
    (rest : List (Nat × Rat)) :
    resolveItems items ((id, s) :: rest) =
      match getKV items id with
      | none => none
      | some item =>
        match resolveItems items rest with
        | none => none
        | some tail => some (item :: tail) := rfl

theorem resolveItems_some {items : List (Nat × Value)} {l : List (Nat × Rat)}
    (h : ∀ x ∈ l, x.1 ∈ keys items) : ∃ r, resolveItems items l = some r := by
  induction l with
  | nil => exact ⟨[], rfl⟩
  | cons x rest ih =>
    obtain ⟨id, s⟩ := x
    obtain ⟨item, hitem⟩ :=
      exists_getKV_of_mem_keys (h (id, s) (List.mem_cons_self _ _))
    obtain ⟨tail, htail⟩ := ih (fun y hy => h y (List.mem_cons.mpr (Or.inr hy)))
    refine ⟨item :: tail, ?_⟩
    simp only [resolveItems_cons, hitem, htail]

theorem get_key_score_list_some {E : Ext} {i : Index} {q : String}
    (hclosed : PostingsClosed i) :
    ∃ ksl, get_key_score_list E i q = some ksl ∧ ∀ x ∈ ksl, x.1 ∈ keys i.items := by
  by_cases hlen : (scoreList E i q).length = 0
  · refine ⟨[], ?_, ?_⟩
    · simp only [get_key_score_list]
      rw [if_pos hlen]
    · intro x hx
      cases hx
  · have hnil : scoreList E i q ≠ [] := fun hc => hlen (by simp [hc])
    obtain ⟨top, rest, hs⟩ : ∃ top rest,
        sortDesc (scoreList E i q) = top :: rest := by
      cases hsd : sortDesc (scoreList E i q) with
      | nil => exact absurd (sortDesc_eq_nil_iff.mp hsd) hnil
      | cons a r => exact ⟨a, r, rfl⟩
    have htopnn : 0 ≤ top.2 :=
      scoreList_nonneg E i q top (mem_sortDesc.mp (hs ▸ List.mem_cons_self top rest))
    have hcc0 : coarseCandidates E i q =
        List.filter (fun x => decide (top.2 / 2 ≤ x.2)) (top :: rest) := by
      simp only [coarseCandidates]
      rw [hs]
      rfl
    have hfilter : coarseCandidates E i q =
        top :: rest.filter (fun x => decide (top.2 / 2 ≤ x.2)) := by
      rw [hcc0, List.filter_cons, if_pos (decide_eq_true (half_le_self htopnn))]
    have hids : ∀ x ∈ coarseCandidates E i q, x.1 ∈ keys i.items := by
      intro x hx
      obtain ⟨tp, htp, p, hp, hnp⟩ :=
        scoreList_ids (List.mem_map_of_mem Prod.fst (mem_coarseCandidates hx))
      rw [hnp]
      exact hclosed tp htp p hp
    obtain ⟨fz, hfz, hfzids⟩ := @fuzzyLoop_some E i q (coarseCandidates E i q) hids
    have hhead : (coarseCandidates E i q).head? = some top := by
      rw [hfilter]
      rfl
    refine ⟨sortDesc fz, ?_, ?_⟩
    · simp only [get_key_score_list]
      rw [if_neg hlen]
      simp only [hfz, hhead]
    · intro x hx
      exact hfzids x (mem_sortDesc.mp hx)

/-- C9: `search` cannot fail on any reachable index state: the document
store lookups of the fuzzy rerank and of the result resolution always
succeed (and the score-comparison and payload-re-parse panics modelled in
the embedding never fire), so `search` returns a list for every query. -/
theorem search_never_fails {E : Ext} {i : Index} (h : Reachable E i)
    (q : String) : (search E i q).isSome = true := by
  have hclosed := postingsClosed_of_reachable h
  simp only [search]
  by_cases hlen : (trimStr q).length = 0
  · rw [if_pos hlen]
    rfl
  · rw [if_neg hlen]
    obtain ⟨ksl, hksl, hids⟩ := @get_key_score_list_some E i (trimStr q) hclosed
    obtain ⟨r, hr⟩ := resolveItems_some hids
    simp only [hksl, hr]
    rfl

/-- C9 witness: searching the reachable one-document index succeeds. -/
theorem search_never_fails_witness :
    (search extWhole idxTitle "x").isSome = true :=
  search_never_fails
    (@Reachable.step_add extWhole (create ["title"]) docT idxTitle
      (Reachable.step_create ["title"]) rfl) "x"

/-! ## Empty-query search (claim C8) -/

/-- C8: a query that is empty after trimming returns exactly the stored
documents, one per Document Store entry, independently of the tokenizer,
the matcher and the inverted index — the scored-search path is not
entered. -/
theorem search_empty_query (E : Ext) (i : Index) (q : String)
    (h : trimStr q = "") :
    search E i q = some (i.items.map (fun p => p.2)) := by
  simp only [search, h]
  rfl

/-- C8 witness: a whitespace-only query on the one-document index returns
exactly its stored document. -/
theorem search_empty_query_witness :
    search extWhole idxTitle " " = some [docT] :=
  search_empty_query extWhole idxTitle " " rfl

/-! ## Duplicate add (claim C1) and update panics (claim C3) -/

/-- C1: evaluation of the code at the failing input.  Calling `add_object`
with external id `"a"` already present does not fail with any error:
it succeeds, increments the counter to 2, remaps `"a"` to the fresh
internal id 1 and keeps the old payload stored under the now-orphaned
internal id 0 — rather than failing with `DuplicateIdentifier` and leaving
the index unchanged. -/
theorem add_object_duplicate_no_error :
    add_object extTrivial idxOne docA = .ok idxDup ∧
    idxDup.id_counter = 2 ∧
    getKV idxDup.id_map "a" = some 1 ∧
    getKV idxDup.items 0 = some docA ∧
    getKV idxDup.items 1 = some docA :=
  ⟨rfl, rfl, rfl, rfl, rfl⟩

/-- C3: evaluation of the code at the failing inputs.  `update` on a
document without a string `"_id"` hits the first `unwrap` and on an unknown
external id hits the second; both are process-aborting panics in the Rust
code (modelled here as the `Panic` error results), not recoverable
`MissingId`/`UnknownId` failures returned to the caller. -/
theorem update_panics_on_identifier_errors :
    update extTrivial idxOne (Value.obj [("title", Value.str "x")]) =
      .error Panic.missingId ∧
    update extTrivial idxOne (Value.obj [("_id", Value.str "zz")]) =
      .error Panic.unknownId :=
  ⟨rfl, rfl⟩

end Gianna
